import Mathlib

/- Verification of the dataset-generation pipeline in src/data_generator.py
   (Enigma ML cryptanalysis data generator).  Texts are modeled as lists of
   characters; a Python Counter is modeled as its items view: keys in
   first-encounter (dict insertion) order, each paired with its multiplicity;
   Counter.most_common is modeled as a stable descending sort by count of that
   items list, matching the documented behavior of sorted and heapq.nlargest
   (both stable) applied to dict items in insertion order. -/

namespace EnigmaData

variable {α : Type*} [DecidableEq α]

/-- Keys of a Python Counter built from the list, in first-encounter order. -/
def encKeys : List α → List α
  | [] => []
  | x :: xs => x :: (encKeys xs).filter (fun y => decide (y ≠ x))

/-- Items list of Counter(l): keys in first-encounter order with their counts. -/
def table (l : List α) : List (α × Nat) :=
  (encKeys l).map (fun k => (k, l.count k))

/-- Insert one item into a count-sorted (descending) list, before the first item
with a strictly smaller count; on equal counts the element already present stays
first, so the sort built from this insertion is stable. -/
def insertByCount (x : α × Nat) : List (α × Nat) → List (α × Nat)
  | [] => [x]
  | y :: ys => if y.2 ≤ x.2 then x :: y :: ys else y :: insertByCount x ys

/-- Stable sort of Counter items by descending count. -/
def sortByCountDesc : List (α × Nat) → List (α × Nat)
  | [] => []
  | x :: xs => insertByCount x (sortByCountDesc xs)

/-- Model of Counter(l).most_common n : the first n items of the stable
descending sort of the items list. -/
def most_common (l : List α) (n : Nat) : List (α × Nat) :=
  (sortByCountDesc (table l)).take n

/-- Keys reported by Counter(l).most_common n. -/
def mostCommonKeys (l : List α) (n : Nat) : List α :=
  (most_common l n).map Prod.fst

end EnigmaData

namespace DataGenerator

open EnigmaData

/-- Shannon entropy of the letter-frequency distribution of the text, base 2
(calculate_entropy, src/data_generator.py lines 133-137). -/
noncomputable def calculate_entropy (text : List Char) : ℝ :=
  -(((table text).map
      (fun kc => (kc.2 : ℝ) / text.length * Real.logb 2 ((kc.2 : ℝ) / text.length))).sum)

/-- Index of coincidence (index_of_coincidence, lines 139-147): 0 when the
length is at most 1, otherwise the sum of count*(count-1) over letter counts
divided by n*(n-1). -/
def index_of_coincidence (text : List Char) : ℚ :=
  if text.length ≤ 1 then 0
  else ((((table text).map (fun kc => kc.2 * (kc.2 - 1))).sum : ℕ) : ℚ)
        / ((text.length : ℚ) * ((text.length : ℚ) - 1))

/-- Overlapping two-character substrings of the text, in order. -/
def bigrams (text : List Char) : List (List Char) :=
  (text.zip text.tail).map (fun p => [p.1, p.2])

/-- Bigram statistics (calculate_bigram_stats, lines 149-158): the bigram
frequency table and the single most common bigram; empty table and empty string
when the text is shorter than 2 characters. -/
def calculate_bigram_stats (text : List Char) : List (List Char × Nat) × List Char :=
  if text.length < 2 then ([], [])
  else (table (bigrams text), (mostCommonKeys (bigrams text) 1).headD [])

/-- Per-position alphabet shifts from plaintext to ciphertext, each reduced
modulo 26 (Python % on ints is nonnegative for a positive modulus, as is Int
emod in Lean). -/
def shifts (plaintext ciphertext : List Char) : List ℤ :=
  List.zipWith (fun p c => ((c.toNat : ℤ) - (p.toNat : ℤ)) % 26) plaintext ciphertext

/-- Letter-shift statistics (calculate_letter_shift_stats, lines 160-177):
shift-count table, number of self-encryptions (shift 0) and average shift;
all empty or zero when the two lengths differ. -/
def calculate_letter_shift_stats (plaintext ciphertext : List Char) :
    List (ℤ × Nat) × Nat × ℚ :=
  if plaintext.length ≠ ciphertext.length then ([], 0, 0)
  else
    let s := shifts plaintext ciphertext
    (table s, s.count 0, if s ≠ [] then (s.sum : ℚ) / s.length else 0)

/-- Number of adjacent positions of the ciphertext holding equal characters;
this single expression appears twice in generate_dataset (lines 275 and 283),
once as the kappa numerator and once as the repeated_letters count. -/
def adjacentMatches (ciphertext : List Char) : Nat :=
  (ciphertext.zip ciphertext.tail).countP (fun p => decide (p.1 = p.2))

/-- Kappa-1 as computed inline in generate_dataset (lines 273-276): 0 unless the
ciphertext has length above 1, else adjacent matches over length - 1. -/
def kappa_1 (ciphertext : List Char) : ℚ :=
  if 1 < ciphertext.length then
    (adjacentMatches ciphertext : ℚ) / ((ciphertext.length : ℚ) - 1)
  else 0

/-- Repeated-letters count as computed inline in generate_dataset (line 283). -/
def repeated_letters (ciphertext : List Char) : Nat :=
  adjacentMatches ciphertext

/-- Characters stripped by Python str.strip() that can occur in the captured
stdout of the external simulator (ASCII whitespace). -/
def pyIsSpace (c : Char) : Bool :=
  c = ' ' || c = '\t' || c = '\n' || c = '\r' || c = '\x0b' || c = '\x0c'

/-- Model of Python str.strip(): drop whitespace from both ends. -/
def pyStrip (s : List Char) : List Char :=
  ((s.dropWhile pyIsSpace).reverse.dropWhile pyIsSpace).reverse

/-- Outcome of the single subprocess.run call inside run_enigma: the process
completed with an exit status and captured stdout and stderr, or the 10 second
timeout fired (subprocess.TimeoutExpired), or some other exception was raised. -/
inductive ProcessOutcome where
  | completed (returncode : Int) (stdout stderr : List Char)
  | timedOut
  | raised
deriving DecidableEq

/-- Cipher oracle adapter (run_enigma, lines 108-131): None on nonzero exit, on
timeout and on any unexpected error; the stripped stdout on exit status 0. -/
def run_enigma (outcome : ProcessOutcome) : Option (List Char) :=
  match outcome with
  | .completed rc out _ => if rc ≠ 0 then none else some (pyStrip out)
  | .timedOut => none
  | .raised => none

end DataGenerator

namespace MessageTemplates

/- Vocabulary pools from src/message_templates.py that the four generator
functions actually draw from, plus the two pools written inline in
generate_weather_report (wind directions and weather phenomena). -/

/-- Military units pool (message_templates.py lines 17-20). -/
def MILITARY_UNITS : List String :=
  ["Kriegsmarine", "Wehrmacht", "Oberkommando der Marine", "OKM",
   "Luftwaffe", "Abwehr", "Abteilung", "U-Bootwaffe", "Flottenkommando"]

/-- Message openings pool (lines 30-32). -/
def MESSAGE_OPENINGS : List String :=
  ["AN BEFEHLSHABER", "AN GRUPPE", "VON KOMMANDO", "FUNKSPRUCH", "GEHEIME KOMMANDOSACHE"]

/-- Command terms pool (lines 67-70). -/
def COMMAND_TERMS : List String :=
  ["Befehl", "Anweisung", "Abtreten", "Abweisen", "Absetzung",
   "Aufgabe", "Aufklarung"]

/-- Vessels pool (lines 78-82); note the non-ASCII letters in some entries. -/
def VESSELS : List String :=
  ["Schnellboot", "Hilfskreuzer", "Zerstörer", "Schlachtschiff",
   "Panzerschiff", "Unterseeboot", "Minensucher", "Torpedoboot",
   "Flugzeugträger", "Kreuzer", "Flakschiff", "Vorpostenboot"]

/-- Grid squares pool (lines 98-101). -/
def GRID_SQUARES : List String :=
  ["AJ47", "BF13", "CK89", "AL88", "AM63", "BC10",
   "BD20", "CX33", "DJ56", "FG77", "HI22", "JK45"]

/-- Wind directions, inline in generate_weather_report (data_generator line 36). -/
def WIND_DIRECTIONS : List String :=
  ["NORD", "OST", "SUED", "WEST", "NORDOST", "SUEDOST", "SUEDWEST", "NORDWEST"]

/-- Weather phenomena, inline in generate_weather_report (line 39). -/
def PHENOMENA : List String :=
  ["KLAR", "BEWOELKT", "REGEN", "NEBEL", "SCHNEE", "STURM", ""]

end MessageTemplates

namespace DataGenerator

open EnigmaData MessageTemplates

/-- Digit characters of a natural number, most significant first; structural
recursion on a fuel argument that the wrapper below always supplies amply. -/
def natDigitsCore : Nat → Nat → List Char
  | 0, _ => []
  | fuel + 1, n =>
    if n < 10 then [Nat.digitChar n]
    else natDigitsCore fuel (n / 10) ++ [Nat.digitChar (n % 10)]

/-- Decimal digit characters of a natural number, as produced by Python str(). -/
def natDigits (n : Nat) : List Char := natDigitsCore (n + 1) n

/-- Python str() of an integer: optional minus sign followed by the digits. -/
def intStr (i : Int) : List Char :=
  if i < 0 then '-' :: natDigits i.natAbs else natDigits i.toNat

/-- Python format specifier 02d for the hour and minute draws, which lie in
0..23 and 0..59: pad a single digit with a leading zero. -/
def twoDigit (n : Nat) : List Char :=
  (if n < 10 then ['0'] else []) ++ natDigits n

/-- The 4-digit HHMM time strings built by every generator function. -/
def timeStr (hour minute : Nat) : List Char :=
  twoDigit hour ++ twoDigit minute

/-- WEATHER_REPORT_TEMPLATE.format of generate_weather_report (lines 30-45). -/
def generate_weather_report (grid : String) (hour minute : Nat) (temp : Int)
    (visibility : Nat) (windDir : String) (windStrength pressure : Nat)
    (phenomenon : String) : List Char :=
  "WETTERKURZSIGNAL QUADRAT ".toList ++ grid.toList ++ [' '] ++ timeStr hour minute
    ++ "UHR ".toList ++ intStr temp ++ "GRAD ".toList ++ natDigits visibility
    ++ "KM ".toList ++ windDir.toList ++ [' '] ++ natDigits windStrength ++ [' ']
    ++ natDigits pressure ++ [' '] ++ phenomenon.toList

/-- POSITION_REPORT_TEMPLATE.format of generate_position_report (lines 47-56). -/
def generate_position_report (grid : String) (hour minute course speed : Nat) :
    List Char :=
  "STANDORT QUADRAT ".toList ++ grid.toList ++ [' '] ++ timeStr hour minute
    ++ "UHR KURS ".toList ++ natDigits course ++ " GESCHWINDIGKEIT ".toList
    ++ natDigits speed

/-- ENEMY_SIGHTING_TEMPLATE.format of generate_enemy_sighting (lines 58-70);
the location argument is the string QUADRAT followed by the grid square. -/
def generate_enemy_sighting (vesselType : String) (number : Nat) (grid : String)
    (hour minute course speed : Nat) : List Char :=
  "FEINDSICHTUNG ".toList ++ vesselType.toList ++ [' '] ++ natDigits number
    ++ " QUADRAT ".toList ++ grid.toList ++ [' '] ++ timeStr hour minute
    ++ "UHR KURS ".toList ++ natDigits course ++ " GESCHWINDIGKEIT ".toList
    ++ natDigits speed

/-- The f-string of generate_military_message (lines 72-80). -/
def generate_military_message (opening unit command vessel grid : String) :
    List Char :=
  opening.toList ++ [' '] ++ unit.toList ++ [' '] ++ command.toList ++ [' ']
    ++ vessel.toList ++ " QUADRAT ".toList ++ grid.toList

/-- One complete set of random draws for a single message synthesis: the chosen
category together with every value drawn inside the corresponding generator. -/
inductive MsgDraw where
  | weather (grid : String) (hour minute : Nat) (temp : Int) (visibility : Nat)
      (windDir : String) (windStrength pressure : Nat) (phenomenon : String)
  | position (grid : String) (hour minute course speed : Nat)
  | sighting (vesselType : String) (number : Nat) (grid : String)
      (hour minute course speed : Nat)
  | military (opening unit command vessel grid : String)
deriving DecidableEq

/-- Raw message text for a set of draws: the dispatch of generate_plaintext
lines 90-97 (identical to the inline dispatch in generate_dataset lines 224-231). -/
def synthesize : MsgDraw → List Char
  | .weather grid hour minute temp visibility windDir windStrength pressure phenomenon =>
      generate_weather_report grid hour minute temp visibility windDir windStrength
        pressure phenomenon
  | .position grid hour minute course speed =>
      generate_position_report grid hour minute course speed
  | .sighting vesselType number grid hour minute course speed =>
      generate_enemy_sighting vesselType number grid hour minute course speed
  | .military opening unit command vessel grid =>
      generate_military_message opening unit command vessel grid

/-- Message type string the driver records for a set of draws. -/
def message_type_of : MsgDraw → String
  | .weather _ _ _ _ _ _ _ _ _ => "WEATHER"
  | .position _ _ _ _ _ => "POSITION"
  | .sighting _ _ _ _ _ _ _ => "SIGHTING"
  | .military _ _ _ _ _ => "MILITARY"

/-- A set of draws is one random.choice can actually produce: every pool-valued
field comes from its pool.  Numeric fields need no constraint here because any
integer renders to sign and digit characters only. -/
def validDraw : MsgDraw → Bool
  | .weather grid _ _ _ _ windDir _ _ phenomenon =>
      decide (grid ∈ GRID_SQUARES) && decide (windDir ∈ WIND_DIRECTIONS)
        && decide (phenomenon ∈ PHENOMENA)
  | .position grid _ _ _ _ => decide (grid ∈ GRID_SQUARES)
  | .sighting vesselType _ grid _ _ _ _ =>
      decide (vesselType ∈ VESSELS) && decide (grid ∈ GRID_SQUARES)
  | .military opening unit command vessel grid =>
      decide (opening ∈ MESSAGE_OPENINGS) && decide (unit ∈ MILITARY_UNITS)
        && decide (command ∈ COMMAND_TERMS) && decide (vessel ∈ VESSELS)
        && decide (grid ∈ GRID_SQUARES)

/-- The uppercase ASCII alphabet used by the cipher. -/
def AZ : List Char := "ABCDEFGHIJKLMNOPQRSTUVWXYZ".toList

/-- Model of Python str.upper restricted to characters that occur in the
template vocabulary: ASCII lowercase maps to uppercase, the lowercase umlauts
map to uppercase umlauts, everything else is fixed.  No pool drawn from by the
generators contains a character (such as the sharp s) whose Python uppercase
form is longer than one character, so a character-to-character map is faithful. -/
def pyUpper (c : Char) : Char :=
  if 'a' ≤ c ∧ c ≤ 'z' then Char.ofNat (c.toNat - 32)
  else if c = 'ä' then 'Ä'
  else if c = 'ö' then 'Ö'
  else if c = 'ü' then 'Ü'
  else c

/-- Model of Python str.isalpha restricted to characters that occur in the
template vocabulary and their uppercase images: ASCII letters and the six
umlaut letters are alphabetic, digits, space and the minus sign are not. -/
def pyIsAlpha (c : Char) : Bool :=
  ('A' ≤ c && c ≤ 'Z') || ('a' ≤ c && c ≤ 'z')
    || ['Ä', 'Ö', 'Ü', 'ä', 'ö', 'ü'].contains c

/-- Normalization in generate_plaintext lines 99-104 (and inline in
generate_dataset lines 233-238): truncate to max_length characters, uppercase,
then keep only alphabetic characters. -/
def normalize (raw : List Char) (max_length : Nat) : List Char :=
  ((raw.take max_length).map pyUpper).filter pyIsAlpha

/-- Plaintext synthesis (generate_plaintext, lines 82-106) as a function of the
random draws and the maximum length. -/
def generate_plaintext (d : MsgDraw) (max_length : Nat := 50) : List Char :=
  normalize (synthesize d) max_length

/-- Every character a raw synthesized message can contain: ASCII letters of both
cases, the lowercase umlauts appearing in the pools, digits, space and minus. -/
def rawInventory : List Char :=
  AZ ++ "abcdefghijklmnopqrstuvwxyz".toList ++ ['ä', 'ö', 'ü']
    ++ "0123456789".toList ++ [' ', '-']

/-- Uppercase letters: what survives normalization. -/
def upperLetters : List Char := AZ ++ ['Ä', 'Ö', 'Ü']

/-- A one-character Python string from an optional character, empty for none:
the shape of the guarded expressions c[0] if c else the empty string. -/
def charStr : Option Char → List Char
  | none => []
  | some c => [c]

/-- One sample row of the output CSV, with every column the driver fills in
(generate_dataset lines 286-321).  The entropy column is a real number; every
other column is exact. -/
structure SampleRecord where
  plaintext : List Char
  ciphertext : List Char
  rotor_left : Char
  rotor_middle : Char
  rotor_right : Char
  full_position : List Char
  message_type : String
  plaintext_length : Nat
  ciphertext_length : Nat
  entropy : ℝ
  index_of_coincidence : ℚ
  kappa_1 : ℚ
  most_common_plaintext_letter : List Char
  most_common_ciphertext_letter : List Char
  most_common_bigram : List Char
  top_3_bigrams : List Char
  self_encryptions : Nat
  avg_shift : ℚ
  first_letter_shift : ℤ
  last_letter_shift : ℤ
  repeated_letters : Nat
  first_letter : List Char
  last_letter : List Char

/-- Assembly of the sample_data dictionary (generate_dataset lines 254-321)
from the accepted plaintext, ciphertext, rotor position and message type.  The
unguarded Python index expressions plaintext[0], plaintext[-1], ciphertext[0],
ciphertext[-1] and position[i] are modeled with default-valued access; the
driver guards proved below show the defaults are never reached for the first
four, which is the safety content of the specification. -/
noncomputable def mkRecord (plaintext ciphertext position : List Char)
    (msgType : String) : SampleRecord :=
  { plaintext := plaintext
    ciphertext := ciphertext
    rotor_left := position.getD 0 ' '
    rotor_middle := position.getD 1 ' '
    rotor_right := position.getD 2 ' '
    full_position := position
    message_type := msgType
    plaintext_length := plaintext.length
    ciphertext_length := ciphertext.length
    entropy := calculate_entropy ciphertext
    index_of_coincidence := index_of_coincidence ciphertext
    kappa_1 := kappa_1 ciphertext
    most_common_plaintext_letter := mostCommonKeys plaintext 1
    most_common_ciphertext_letter := mostCommonKeys ciphertext 1
    most_common_bigram := (calculate_bigram_stats ciphertext).2
    top_3_bigrams :=
      List.intercalate [',']
        (((sortByCountDesc (calculate_bigram_stats ciphertext).1).take 3).map Prod.fst)
    self_encryptions := (calculate_letter_shift_stats plaintext ciphertext).2.1
    avg_shift := (calculate_letter_shift_stats plaintext ciphertext).2.2
    first_letter_shift :=
      (((ciphertext.headD ' ').toNat : ℤ) - ((plaintext.headD ' ').toNat : ℤ)) % 26
    last_letter_shift :=
      (((ciphertext.getLastD ' ').toNat : ℤ) - ((plaintext.getLastD ' ').toNat : ℤ)) % 26
    repeated_letters := repeated_letters ciphertext
    first_letter := charStr ciphertext.head?
    last_letter := charStr ciphertext.getLast? }

/-- The fresh random data of one iteration of the generation loop: the message
draws, the rotor position from weighted_position, and what the run_enigma call
of this iteration returned (the external process is an opaque oracle, so its
reply is part of the iteration data). -/
structure Attempt where
  draw : MsgDraw
  position : List Char
  oracleReply : Option (List Char)

/-- One iteration of the generation loop (generate_dataset lines 217-321):
synthesize and normalize the plaintext, discard the attempt when it is shorter
than 8 characters, discard when the oracle reply is None or empty (the Python
guard is if not ciphertext), otherwise assemble the sample record. -/
noncomputable def processAttempt (max_length : Nat) (a : Attempt) :
    Option SampleRecord :=
  let plaintext := normalize (synthesize a.draw) max_length
  if plaintext.length < 8 then none
  else
    match a.oracleReply with
    | none => none
    | some c =>
      if c = [] then none
      else some (mkRecord plaintext c a.position (message_type_of a.draw))

/-- A line of the output CSV file: the header written once at opening, or one
data row per sample. -/
inductive CsvLine where
  | headerLine
  | dataLine (r : SampleRecord)

/-- State of the driver: the lines of the output file so far, the list of row
batches appended so far (one entry per append), the in-memory batch and the
success counter. -/
structure DriverState where
  file : List CsvLine
  writeEvents : List (List SampleRecord)
  batch : List SampleRecord
  successes : Nat

/-- Append the current batch to the file and clear it (the body of the
batch-size flush, lines 328-332, and of the final flush, lines 337-340). -/
def flushBatch (s : DriverState) : DriverState :=
  { s with file := s.file ++ s.batch.map .dataLine
           writeEvents := s.writeEvents ++ [s.batch]
           batch := [] }

/-- The while loop of generate_dataset (lines 216-334) consuming a stream of
attempts: stop when the quota is reached; otherwise process one attempt,
appending an accepted sample to the batch and flushing the batch once it
reaches batch_size. -/
noncomputable def runLoop (count batch_size max_length : Nat) :
    List Attempt → DriverState → DriverState
  | [], s => s
  | a :: rest, s =>
    if count ≤ s.successes then s
    else
      match processAttempt max_length a with
      | none => runLoop count batch_size max_length rest s
      | some r =>
        let s1 : DriverState :=
          { s with batch := s.batch ++ [r], successes := s.successes + 1 }
        runLoop count batch_size max_length rest
          (if batch_size ≤ s1.batch.length then flushBatch s1 else s1)

/-- Driver state after the loop and the final flush of any leftover partial
batch (generate_dataset lines 207-340): the file starts as just the header
written at opening. -/
noncomputable def finalState (count : Nat) (attempts : List Attempt)
    (max_length batch_size : Nat) : DriverState :=
  let s0 : DriverState := { file := [.headerLine], writeEvents := [], batch := [], successes := 0 }
  let s1 := runLoop count batch_size max_length attempts s0
  if s1.batch.isEmpty then s1 else flushBatch s1

/-- The dataset generation driver (generate_dataset, lines 179-344) over an
explicit finite stream of attempt randomness: write the header, run the quota
loop, flush any leftover partial batch.  The Python loop runs until the quota
is met, so the run terminates normally exactly when the quota is met within the
supplied stream; otherwise the model returns none. -/
noncomputable def generate_dataset (count : Nat) (attempts : List Attempt)
    (max_length : Nat := 50) (batch_size : Nat := 1000) : Option (List CsvLine) :=
  if (finalState count attempts max_length batch_size).successes = count
  then some (finalState count attempts max_length batch_size).file else none

/-- Recognizer for the header line of the output file. -/
def CsvLine.isHeader : CsvLine → Bool
  | .headerLine => true
  | .dataLine _ => false

/-- All rows a driver state accounts for: rows already written plus the pending
in-memory batch, in order. -/
def rowsOf (s : DriverState) : List SampleRecord :=
  s.writeEvents.flatten ++ s.batch

/-- Loop invariant of the driver: the file is the header followed by the data
lines of all flushed batches in order, the success counter counts all rows, the
pending batch is strictly below the flush threshold, every flushed batch is
nonempty, and (for a positive threshold) every flushed batch is exactly full. -/
def driverInv (batch_size : Nat) (s : DriverState) : Prop :=
  s.file = .headerLine :: s.writeEvents.flatten.map .dataLine ∧
  s.successes = (rowsOf s).length ∧
  (0 < batch_size → s.batch.length < batch_size) ∧
  (∀ b ∈ s.writeEvents, b ≠ []) ∧
  (0 < batch_size → ∀ b ∈ s.writeEvents, b.length = batch_size)

end DataGenerator

namespace DataGenerator

/-- Element of the shifts list at a position that exists in both texts. -/
theorem shifts_getD (p : List Char) :
    ∀ (c : List Char) (i : Nat), i < p.length → i < c.length →
      (shifts p c).getD i 0 =
        (((c.getD i ' ').toNat : ℤ) - ((p.getD i ' ').toNat : ℤ)) % 26 := by
  induction p with
  | nil => intro c i hip hic; simp at hip
  | cons a p ih =>
    intro c i hip hic
    cases c with
    | nil => simp at hic
    | cons b c =>
      cases i with
      | zero => simp [shifts]
      | succ j => simpa [shifts] using ih c j (by simpa using hip) (by simpa using hic)

/-- Counting a value in a list is counting the positions holding that value. -/
theorem count_eq_countP_range (l : List ℤ) (x d : ℤ) :
    l.count x = (List.range l.length).countP (fun i => decide (l.getD i d = x)) := by
  induction l with
  | nil => simp
  | cons a l ih =>
    rw [List.count_cons, List.length_cons, List.range_succ_eq_map, List.countP_cons,
      List.countP_map]
    have hcomp : ((fun i => decide ((a :: l).getD i d = x)) ∘ Nat.succ) =
        (fun i => decide (l.getD i d = x)) := by
      funext i
      simp
    rw [hcomp, ih]
    simp

/-- Length of the shifts list for same-length texts. -/
theorem shifts_length (p c : List Char) (h : p.length = c.length) :
    (shifts p c).length = p.length := by
  simp [shifts, h]

end DataGenerator

section ClaimTheorems
open EnigmaData DataGenerator MessageTemplates

/-- C3: the cipher oracle adapter returns a Failure (none) exactly when the
external process exits nonzero, times out, or raises an unexpected error; on
exit status zero it returns the captured stdout with surrounding whitespace
stripped.  The adapter is a total function of the process outcome, so it never
raises. -/
theorem run_enigma_spec :
    ∀ outcome : ProcessOutcome,
      (run_enigma outcome = none ↔
        outcome = .timedOut ∨ outcome = .raised ∨
          ∃ rc out err, rc ≠ 0 ∧ outcome = .completed rc out err) ∧
      (∀ out err : List Char, run_enigma (.completed 0 out err) = some (pyStrip out)) := by
  intro outcome
  refine ⟨?_, fun out err => by simp [run_enigma]⟩
  cases outcome with
  | completed rc out err =>
    by_cases h : rc = 0
    · subst h
      simp [run_enigma]
    · simp only [run_enigma, if_pos h]
      exact iff_of_true trivial (Or.inr (Or.inr ⟨rc, out, err, h, rfl⟩))
  | timedOut => simp [run_enigma]
  | raised => simp [run_enigma]

/-- Witness for C3 at concrete outcomes. -/
theorem run_enigma_spec_witness :
    run_enigma (.completed 0 "  ABC \n".toList "".toList) = some "ABC".toList := by
  rw [(run_enigma_spec (.completed 0 "  ABC \n".toList "".toList)).2 "  ABC \n".toList
    "".toList]
  decide

/-- C9: the extractors degrade gracefully on degenerate input: texts shorter
than 2 give an empty bigram table, an empty most common bigram and an index of
coincidence of 0; texts of unequal lengths give empty and zero shift
statistics.  All three functions are total, so none of them raises. -/
theorem degenerate_inputs_graceful :
    (∀ text : List Char, text.length < 2 → calculate_bigram_stats text = ([], [])) ∧
    (∀ text : List Char, text.length ≤ 1 → index_of_coincidence text = 0) ∧
    (∀ p c : List Char, p.length ≠ c.length →
        calculate_letter_shift_stats p c = ([], 0, 0)) := by
  refine ⟨fun t h => ?_, fun t h => ?_, fun p c h => ?_⟩
  · rw [calculate_bigram_stats, if_pos h]
  · rw [index_of_coincidence, if_pos h]
  · rw [calculate_letter_shift_stats, if_pos h]

/-- Witness for C9 at concrete degenerate inputs. -/
theorem degenerate_inputs_graceful_witness :
    calculate_bigram_stats ['A'] = ([], []) ∧ index_of_coincidence ['A'] = 0 ∧
      calculate_letter_shift_stats ['A'] [] = ([], 0, 0) :=
  ⟨degenerate_inputs_graceful.1 ['A'] (by decide),
   degenerate_inputs_graceful.2.1 ['A'] (by decide),
   degenerate_inputs_graceful.2.2 ['A'] [] (by decide)⟩

/-- C5: the repeated_letters feature is the rounding of kappa_1 times N-1 for
ciphertexts of length above 1, and kappa_1 is 0 for length at most 1. -/
theorem repeated_letters_eq_round_kappa :
    ∀ ciphertext : List Char,
      (1 < ciphertext.length →
        (repeated_letters ciphertext : ℤ) =
          round (kappa_1 ciphertext * ((ciphertext.length : ℚ) - 1))) ∧
      (ciphertext.length ≤ 1 → kappa_1 ciphertext = 0) := by
  intro c
  constructor
  · intro h
    have h2 : (2 : ℕ) ≤ c.length := h
    have hne : ((c.length : ℚ) - 1) ≠ 0 := by
      have : (2 : ℚ) ≤ (c.length : ℚ) := by exact_mod_cast h2
      intro habs
      linarith
    rw [kappa_1, if_pos h, div_mul_cancel₀ _ hne, round_natCast]
    rfl
  · intro h
    rw [kappa_1, if_neg (by omega)]

/-- Witness for C5 at a concrete ciphertext. -/
theorem repeated_letters_eq_round_kappa_witness :
    1 < "AABBC".toList.length ∧
      (repeated_letters "AABBC".toList : ℤ) =
        round (kappa_1 "AABBC".toList * (("AABBC".toList.length : ℚ) - 1)) :=
  ⟨by decide, (repeated_letters_eq_round_kappa "AABBC".toList).1 (by decide)⟩

/-- C6: for same-length texts, each shift is the mod-26 code difference at its
position, self_encryptions counts the positions with shift 0, avg_shift is the
arithmetic mean of the shifts, and on the HELLOWORLD scenario with ciphertext
equal to plaintext the function reports 10 self-encryptions and mean 0. -/
theorem letter_shift_stats_spec :
    (∀ (p c : List Char), p.length = c.length → ∀ i : Nat, i < p.length →
        (shifts p c).getD i 0 =
          (((c.getD i ' ').toNat : ℤ) - ((p.getD i ' ').toNat : ℤ)) % 26) ∧
    (∀ (p c : List Char), p.length = c.length →
        (calculate_letter_shift_stats p c).2.1 =
          (List.range (shifts p c).length).countP
            (fun i => decide ((shifts p c).getD i 1 = 0))) ∧
    (∀ (p c : List Char), p.length = c.length → 1 ≤ p.length →
        (calculate_letter_shift_stats p c).2.2 =
          ((shifts p c).sum : ℚ) / (p.length : ℚ)) ∧
    (calculate_letter_shift_stats "HELLOWORLD".toList "HELLOWORLD".toList).2.1 = 10 ∧
    (calculate_letter_shift_stats "HELLOWORLD".toList "HELLOWORLD".toList).2.2 = 0 := by
  refine ⟨fun p c h i hi => shifts_getD p c i hi (h ▸ hi), fun p c h => ?_, fun p c h h1 => ?_,
    by decide, ?_⟩
  · rw [calculate_letter_shift_stats, if_neg (by omega)]
    exact count_eq_countP_range _ 0 1
  · have hs : (shifts p c).length = p.length := shifts_length p c h
    have hne : shifts p c ≠ [] := by
      intro habs
      rw [habs] at hs
      simp at hs
      omega
    rw [calculate_letter_shift_stats, if_neg (by omega)]
    show (if shifts p c ≠ [] then ((shifts p c).sum : ℚ) / (shifts p c).length else 0) = _
    rw [if_pos hne, hs]
  · have hsum : (shifts "HELLOWORLD".toList "HELLOWORLD".toList).sum = 0 := by decide
    have hne : shifts "HELLOWORLD".toList "HELLOWORLD".toList ≠ [] := by decide
    rw [calculate_letter_shift_stats, if_neg (by decide)]
    show (if shifts "HELLOWORLD".toList "HELLOWORLD".toList ≠ [] then
        ((shifts "HELLOWORLD".toList "HELLOWORLD".toList).sum : ℚ) /
          (shifts "HELLOWORLD".toList "HELLOWORLD".toList).length else 0) = 0
    rw [if_pos hne, hsum]
    simp

/-- Witness for C6 at the HELLOWORLD scenario. -/
theorem letter_shift_stats_spec_witness :
    (calculate_letter_shift_stats "HELLOWORLD".toList "HELLOWORLD".toList).2.2 =
      ((shifts "HELLOWORLD".toList "HELLOWORLD".toList).sum : ℚ) /
        (("HELLOWORLD".toList.length : ℚ)) :=
  letter_shift_stats_spec.2.2.1 "HELLOWORLD".toList "HELLOWORLD".toList rfl (by decide)

/-- C10: every sample that reaches feature assembly has a plaintext of at least
8 characters and a nonempty ciphertext, because the driver discards attempts
with short plaintexts and attempts whose oracle reply is None or empty; hence
the first and last character accesses on both strings are in bounds. -/
theorem driver_guard_bounds :
    (∀ (max_length : Nat) (a : Attempt) (r : SampleRecord),
        processAttempt max_length a = some r →
          8 ≤ r.plaintext.length ∧ 1 ≤ r.ciphertext.length) ∧
    (∀ (max_length : Nat) (a : Attempt),
        a.oracleReply = none ∨ a.oracleReply = some [] →
          processAttempt max_length a = none) := by
  constructor
  · intro max_length a r h
    rw [processAttempt] at h
    by_cases hlen : (normalize (synthesize a.draw) max_length).length < 8
    · rw [if_pos hlen] at h
      exact absurd h (by simp)
    · rw [if_neg hlen] at h
      cases ho : a.oracleReply with
      | none =>
        rw [ho] at h
        exact absurd h (by simp)
      | some c =>
        rw [ho] at h
        have h2 : (if c = [] then none
            else some (mkRecord (normalize (synthesize a.draw) max_length) c a.position
              (message_type_of a.draw))) = some r := h
        by_cases hc : c = []
        · rw [if_pos hc] at h2
          exact absurd h2 (by simp)
        · rw [if_neg hc] at h2
          have hr : r = mkRecord (normalize (synthesize a.draw) max_length) c a.position
              (message_type_of a.draw) := by
            cases h2
            rfl
          subst hr
          refine ⟨by simpa [mkRecord] using Nat.le_of_not_lt hlen, ?_⟩
          have : 0 < c.length := List.length_pos.mpr hc
          simpa [mkRecord] using this
  · intro max_length a h
    rw [processAttempt]
    by_cases hlen : (normalize (synthesize a.draw) max_length).length < 8
    · rw [if_pos hlen]
    · rw [if_neg hlen]
      rcases h with h | h <;> rw [h]
      rfl

/-- Witness for C10: a concrete attempt with a missing oracle reply is
discarded. -/
theorem driver_guard_bounds_witness :
    processAttempt 50 ⟨.position "AJ47" 0 0 0 1, "AAA".toList, none⟩ = none :=
  driver_guard_bounds.2 50 ⟨.position "AJ47" 0 0 0 1, "AAA".toList, none⟩ (Or.inl rfl)

/-- C1 counterexample: a nominally successful oracle call whose ciphertext
length differs from the plaintext length is not discarded.  Running the driver
on one concrete attempt whose oracle reply is the two-letter ciphertext AB for
a 36-letter plaintext terminates normally and writes the mismatched record:
the output file is the header followed by one data row with plaintext_length 36
and ciphertext_length 2. -/
theorem mismatched_ciphertext_written :
    ((generate_dataset 1 [⟨.weather "AJ47" 0 0 0 1 "NORD" 1 990 "KLAR", "AAA".toList,
          some "AB".toList⟩] 50 1000).map
        (fun f => f.map (fun line => match line with
          | .headerLine => (0, 0)
          | .dataLine r => (r.plaintext_length, r.ciphertext_length)))) =
      some [(0, 0), (36, 2)] ∧ (36 : Nat) ≠ 2 :=
  ⟨by decide, by decide⟩

/-- C1 amended: after a nominally successful oracle call the driver checks only
that the reply is neither None nor empty; a nonempty ciphertext whose length
differs from the plaintext length is still assembled into a record (and hence
written), with the letter-shift statistics degraded to zero by
calculate_letter_shift_stats instead of the sample being discarded. -/
theorem mismatched_ciphertext_accepted :
    ∀ (max_length : Nat) (a : Attempt) (c : List Char),
      a.oracleReply = some c → c ≠ [] →
      8 ≤ (normalize (synthesize a.draw) max_length).length →
      processAttempt max_length a =
        some (mkRecord (normalize (synthesize a.draw) max_length) c a.position
          (message_type_of a.draw)) ∧
      (c.length ≠ (normalize (synthesize a.draw) max_length).length →
        (mkRecord (normalize (synthesize a.draw) max_length) c a.position
            (message_type_of a.draw)).self_encryptions = 0 ∧
        (mkRecord (normalize (synthesize a.draw) max_length) c a.position
            (message_type_of a.draw)).avg_shift = 0) := by
  intro max_length a c ho hc hlen
  constructor
  · rw [processAttempt, if_neg (by omega), ho]
    show (if c = [] then none
        else some (mkRecord (normalize (synthesize a.draw) max_length) c a.position
          (message_type_of a.draw))) = _
    rw [if_neg hc]
  · intro hne
    have hstats : calculate_letter_shift_stats
        (normalize (synthesize a.draw) max_length) c = ([], 0, 0) := by
      rw [calculate_letter_shift_stats, if_pos (by omega)]
    constructor
    · show (calculate_letter_shift_stats (normalize (synthesize a.draw) max_length) c).2.1 = 0
      rw [hstats]
    · show (calculate_letter_shift_stats (normalize (synthesize a.draw) max_length) c).2.2 = 0
      rw [hstats]

/-- Witness for C1 amended at the concrete mismatched attempt. -/
theorem mismatched_ciphertext_accepted_witness :
    processAttempt 50 ⟨.weather "AJ47" 0 0 0 1 "NORD" 1 990 "KLAR", "AAA".toList,
        some "AB".toList⟩ =
      some (mkRecord (normalize (synthesize (.weather "AJ47" 0 0 0 1 "NORD" 1 990 "KLAR")) 50)
        "AB".toList "AAA".toList
        (message_type_of (.weather "AJ47" 0 0 0 1 "NORD" 1 990 "KLAR"))) :=
  (mismatched_ciphertext_accepted 50
    ⟨.weather "AJ47" 0 0 0 1 "NORD" 1 990 "KLAR", "AAA".toList, some "AB".toList⟩
    "AB".toList rfl (by decide) (by decide)).1

end ClaimTheorems

namespace DataGenerator

open MessageTemplates

/-- Digit characters lie in the raw character inventory. -/
theorem digitChar_mem_raw (n : Nat) (h : n < 10) : Nat.digitChar n ∈ rawInventory := by
  interval_cases n <;> decide

/-- All characters produced by the digit writer lie in the inventory. -/
theorem natDigitsCore_subset :
    ∀ fuel n : Nat, ∀ c ∈ natDigitsCore fuel n, c ∈ rawInventory := by
  intro fuel
  induction fuel with
  | zero =>
    intro n c hc
    simp [natDigitsCore] at hc
  | succ fuel ih =>
    intro n c hc
    rw [natDigitsCore] at hc
    by_cases h : n < 10
    · rw [if_pos h] at hc
      simp only [List.mem_singleton] at hc
      subst hc
      exact digitChar_mem_raw n h
    · rw [if_neg h] at hc
      rcases List.mem_append.mp hc with h1 | h1
      · exact ih _ c h1
      · simp only [List.mem_singleton] at h1
        subst h1
        exact digitChar_mem_raw _ (Nat.mod_lt _ (by omega))

/-- Characters of the Python rendering of a natural number. -/
theorem natDigits_subset (n : Nat) : ∀ c ∈ natDigits n, c ∈ rawInventory :=
  fun c hc => natDigitsCore_subset _ _ c hc

/-- Characters of the Python rendering of an integer. -/
theorem intStr_subset (i : ℤ) : ∀ c ∈ intStr i, c ∈ rawInventory := by
  intro c hc
  rw [intStr] at hc
  by_cases h : i < 0
  · rw [if_pos h] at hc
    rcases List.mem_cons.mp hc with h1 | h1
    · subst h1
      decide
    · exact natDigits_subset _ c h1
  · rw [if_neg h] at hc
    exact natDigits_subset _ c hc

/-- Characters of a zero-padded two-digit field. -/
theorem twoDigit_subset (n : Nat) : ∀ c ∈ twoDigit n, c ∈ rawInventory := by
  intro c hc
  rw [twoDigit] at hc
  rcases List.mem_append.mp hc with h1 | h1
  · by_cases h : n < 10
    · rw [if_pos h] at h1
      simp only [List.mem_singleton] at h1
      subst h1
      decide
    · rw [if_neg h] at h1
      simp at h1
  · exact natDigits_subset _ c h1

/-- Characters of an HHMM time string. -/
theorem timeStr_subset (hour minute : Nat) : ∀ c ∈ timeStr hour minute, c ∈ rawInventory := by
  intro c hc
  rcases List.mem_append.mp hc with h1 | h1
  · exact twoDigit_subset _ c h1
  · exact twoDigit_subset _ c h1

/-- Characters of any string drawn from a pool whose entries all lie in the
inventory (checked by evaluation on the concrete pool). -/
theorem pool_subset (pool : List String) (s : String)
    (hp : pool.all (fun t => t.toList.all (fun c => decide (c ∈ rawInventory))) = true)
    (hs : s ∈ pool) : ∀ c ∈ s.toList, c ∈ rawInventory := by
  intro c hc
  have h1 := List.all_eq_true.mp hp s hs
  exact of_decide_eq_true (List.all_eq_true.mp h1 c hc)

/-- Every character of a raw synthesized message lies in the inventory, for any
draws whose pool fields come from their pools. -/
theorem synthesize_subset (d : MsgDraw) (hd : validDraw d = true) :
    ∀ c ∈ synthesize d, c ∈ rawInventory := by
  cases d with
  | weather grid hour minute temp visibility windDir windStrength pressure phenomenon =>
    simp only [validDraw, Bool.and_eq_true, decide_eq_true_eq] at hd
    obtain ⟨⟨hg, hw⟩, hp⟩ := hd
    simp only [synthesize, generate_weather_report, List.forall_mem_append]
    repeat' apply And.intro
    all_goals first
      | decide
      | exact pool_subset GRID_SQUARES _ (by decide) hg
      | exact pool_subset WIND_DIRECTIONS _ (by decide) hw
      | exact pool_subset PHENOMENA _ (by decide) hp
      | exact natDigits_subset _
      | exact intStr_subset _
      | exact timeStr_subset _ _
  | position grid hour minute course speed =>
    simp only [validDraw, decide_eq_true_eq] at hd
    simp only [synthesize, generate_position_report, List.forall_mem_append]
    repeat' apply And.intro
    all_goals first
      | decide
      | exact pool_subset GRID_SQUARES _ (by decide) hd
      | exact natDigits_subset _
      | exact timeStr_subset _ _
  | sighting vesselType number grid hour minute course speed =>
    simp only [validDraw, Bool.and_eq_true, decide_eq_true_eq] at hd
    obtain ⟨hv, hg⟩ := hd
    simp only [synthesize, generate_enemy_sighting, List.forall_mem_append]
    repeat' apply And.intro
    all_goals first
      | decide
      | exact pool_subset VESSELS _ (by decide) hv
      | exact pool_subset GRID_SQUARES _ (by decide) hg
      | exact natDigits_subset _
      | exact timeStr_subset _ _
  | military opening unit command vessel grid =>
    simp only [validDraw, Bool.and_eq_true, decide_eq_true_eq] at hd
    obtain ⟨⟨⟨⟨ho, hu⟩, hc⟩, hv⟩, hg⟩ := hd
    simp only [synthesize, generate_military_message, List.forall_mem_append]
    repeat' apply And.intro
    all_goals first
      | decide
      | exact pool_subset MESSAGE_OPENINGS _ (by decide) ho
      | exact pool_subset MILITARY_UNITS _ (by decide) hu
      | exact pool_subset COMMAND_TERMS _ (by decide) hc
      | exact pool_subset VESSELS _ (by decide) hv
      | exact pool_subset GRID_SQUARES _ (by decide) hg

/-- Normalization of a message over the inventory yields only uppercase letters
(ASCII or umlaut); the key step is a finite check over the inventory. -/
theorem normalize_subset (raw : List Char) (max_length : Nat)
    (hraw : ∀ c ∈ raw, c ∈ rawInventory) :
    ∀ c ∈ normalize raw max_length, c ∈ upperLetters := by
  have key : ∀ c0 ∈ rawInventory, pyIsAlpha (pyUpper c0) = true → pyUpper c0 ∈ upperLetters := by
    decide
  intro c hc
  rw [normalize] at hc
  have hfil : pyIsAlpha c = true := List.of_mem_filter hc
  have hmem := List.mem_of_mem_filter hc
  rcases List.mem_map.mp hmem with ⟨c0, hc0, rfl⟩
  exact key c0 (hraw c0 (List.take_subset _ _ hc0)) hfil

/-- Normalization never exceeds the requested maximum length. -/
theorem normalize_length_le (raw : List Char) (max_length : Nat) :
    (normalize raw max_length).length ≤ max_length := by
  calc (normalize raw max_length).length
      ≤ ((raw.take max_length).map pyUpper).length := List.length_filter_le _ _
    _ = (raw.take max_length).length := List.length_map _ _
    _ ≤ max_length := List.length_take_le _ _

end DataGenerator

section ClaimTheoremsB
open EnigmaData DataGenerator MessageTemplates

/-- C2 counterexample: a producible draw (all pool fields from their pools)
yields a nonempty plaintext containing the letter capital O umlaut, which is
not an ASCII letter in A-Z: the vessel name Zerstoerer with umlaut survives
uppercase-then-isalpha filtering because Python isalpha accepts umlauts. -/
theorem generate_plaintext_not_ascii :
    validDraw (.sighting "Zerstörer" 1 "AJ47" 0 0 0 1) = true ∧
      'Ö' ∈ generate_plaintext (.sighting "Zerstörer" 1 "AJ47" 0 0 0 1) 50 ∧
      'Ö' ∉ AZ := by
  refine ⟨by decide, by decide, by decide⟩

/-- C2 amended: every plaintext produced by synthesis and normalization has
length at most max_length and consists only of uppercase letters, where the
letters are the ASCII range A-Z together with the uppercase umlauts that Python
str.isalpha also accepts (C2 as stated restricts to A-Z, which fails). -/
theorem generate_plaintext_normalized :
    ∀ (d : MsgDraw) (max_length : Nat), validDraw d = true →
      (generate_plaintext d max_length).length ≤ max_length ∧
      ∀ c ∈ generate_plaintext d max_length, c ∈ upperLetters := by
  intro d max_length hd
  exact ⟨normalize_length_le _ _, normalize_subset _ _ (synthesize_subset d hd)⟩

/-- Witness for C2 amended at a concrete draw. -/
theorem generate_plaintext_normalized_witness :
    (generate_plaintext (.sighting "Zerstörer" 1 "AJ47" 0 0 0 1) 50).length ≤ 50 ∧
      ∀ c ∈ generate_plaintext (.sighting "Zerstörer" 1 "AJ47" 0 0 0 1) 50,
        c ∈ upperLetters :=
  generate_plaintext_normalized (.sighting "Zerstörer" 1 "AJ47" 0 0 0 1) 50 (by decide)

end ClaimTheoremsB

namespace DataGenerator

/-- Flushing moves the pending batch into the write events without changing the
rows accounted for. -/
theorem flushBatch_rowsOf (s : DriverState) : rowsOf (flushBatch s) = rowsOf s := by
  simp [flushBatch, rowsOf]

/-- Flushing preserves the success counter. -/
theorem flushBatch_successes (s : DriverState) :
    (flushBatch s).successes = s.successes := rfl

/-- One accepted sample preserves the driver invariant and appends exactly one
row, whether or not the batch flushes. -/
theorem step_preserves_inv (batch_size : Nat) (s : DriverState) (r : SampleRecord)
    (hs : driverInv batch_size s) :
    driverInv batch_size
      (if batch_size ≤
          ((⟨s.file, s.writeEvents, s.batch ++ [r], s.successes + 1⟩ : DriverState)).batch.length
        then flushBatch ⟨s.file, s.writeEvents, s.batch ++ [r], s.successes + 1⟩
        else ⟨s.file, s.writeEvents, s.batch ++ [r], s.successes + 1⟩) ∧
    rowsOf
      (if batch_size ≤
          ((⟨s.file, s.writeEvents, s.batch ++ [r], s.successes + 1⟩ : DriverState)).batch.length
        then flushBatch ⟨s.file, s.writeEvents, s.batch ++ [r], s.successes + 1⟩
        else ⟨s.file, s.writeEvents, s.batch ++ [r], s.successes + 1⟩) =
      rowsOf s ++ [r] := by
  obtain ⟨hfile, hsucc, hblt, hne, hfull⟩ := hs
  have hrows1 : rowsOf ⟨s.file, s.writeEvents, s.batch ++ [r], s.successes + 1⟩ =
      rowsOf s ++ [r] := by
    simp [rowsOf]
  by_cases hflush : batch_size ≤ s.batch.length + 1
  · rw [if_pos (by simpa using hflush)]
    refine ⟨⟨?_, ?_, ?_, ?_, ?_⟩, by rw [flushBatch_rowsOf, hrows1]⟩
    · simp only [flushBatch, hfile]
      simp
    · rw [flushBatch_successes, flushBatch_rowsOf, hrows1]
      simp only [List.length_append, List.length_singleton, hsucc, rowsOf]
    · intro hpos
      simpa [flushBatch] using hpos
    · intro b hb
      have hb2 : b ∈ s.writeEvents ∨ b = s.batch ++ [r] := by
        simpa [flushBatch] using hb
      rcases hb2 with h1 | h1
      · exact hne b h1
      · subst h1
        simp
    · intro hpos b hb
      have hb2 : b ∈ s.writeEvents ∨ b = s.batch ++ [r] := by
        simpa [flushBatch] using hb
      rcases hb2 with h1 | h1
      · exact hfull hpos b h1
      · subst h1
        have := hblt hpos
        simp only [List.length_append, List.length_singleton]
        omega
  · rw [if_neg (by simpa using hflush)]
    refine ⟨⟨hfile, ?_, ?_, hne, hfull⟩, hrows1⟩
    · rw [hrows1]
      simp only [List.length_append, List.length_singleton, hsucc, rowsOf]
    · intro hpos
      simp only [List.length_append, List.length_singleton]
      omega

/-- Main loop lemma: the loop preserves the driver invariant and the rows it
accounts for afterwards are the rows before plus the accepted samples of a
prefix of the consumed attempt stream, in order. -/
theorem runLoop_spec (count batch_size max_length : Nat) :
    ∀ (attempts : List Attempt) (s : DriverState),
      driverInv batch_size s →
      driverInv batch_size (runLoop count batch_size max_length attempts s) ∧
      ∃ pre suf, attempts = pre ++ suf ∧
        rowsOf (runLoop count batch_size max_length attempts s) =
          rowsOf s ++ pre.filterMap (processAttempt max_length) := by
  intro attempts
  induction attempts with
  | nil =>
    intro s hs
    exact ⟨hs, [], [], rfl, by simp [runLoop]⟩
  | cons a rest ih =>
    intro s hs
    rw [runLoop]
    by_cases hstop : count ≤ s.successes
    · rw [if_pos hstop]
      exact ⟨hs, [], a :: rest, rfl, by simp⟩
    · rw [if_neg hstop]
      cases hpa : processAttempt max_length a with
      | none =>
        obtain ⟨h1, pre, suf, heq, hrows⟩ := ih s hs
        refine ⟨h1, a :: pre, suf, by rw [List.cons_append, ← heq], ?_⟩
        show rowsOf (runLoop count batch_size max_length rest s) = _
        rw [hrows, List.filterMap_cons_none hpa]
      | some r =>
        obtain ⟨hinv, hrows1⟩ := step_preserves_inv batch_size s r hs
        obtain ⟨h1, pre, suf, heq, hrows⟩ := ih _ hinv
        refine ⟨h1, a :: pre, suf, by rw [List.cons_append, ← heq], ?_⟩
        show rowsOf (runLoop count batch_size max_length rest _) = _
        rw [hrows, hrows1, List.filterMap_cons_some hpa]
        simp

/-- Data lines are never header lines. -/
theorem countP_isHeader_map_dataLine (rows : List SampleRecord) :
    (rows.map CsvLine.dataLine).countP CsvLine.isHeader = 0 := by
  rw [List.countP_map]
  simp [CsvLine.isHeader, Function.comp]

end DataGenerator

section ClaimTheoremsC
open EnigmaData DataGenerator MessageTemplates

/-- C4: when the driver terminates normally the output file is the header row
exactly once, written up front, followed by exactly count data rows: the
accepted samples of a prefix of the attempt stream, in generation order.  The
rows reach the file as append events: every appended batch is nonempty, every
appended batch except possibly the final one holds exactly batch_size rows, no
appended batch exceeds batch_size, and the events concatenate to the rows in
order. -/
theorem generate_dataset_file_spec :
    ∀ (count batch_size max_length : Nat) (attempts : List Attempt) (file : List CsvLine),
      generate_dataset count attempts max_length batch_size = some file →
      ∃ pre suf : List Attempt,
        attempts = pre ++ suf ∧
        (pre.filterMap (processAttempt max_length)).length = count ∧
        file = .headerLine :: (pre.filterMap (processAttempt max_length)).map .dataLine ∧
        file.countP CsvLine.isHeader = 1 ∧
        (finalState count attempts max_length batch_size).writeEvents.flatten =
          pre.filterMap (processAttempt max_length) ∧
        (∀ b ∈ (finalState count attempts max_length batch_size).writeEvents, b ≠ []) ∧
        (0 < batch_size →
          ∀ b ∈ (finalState count attempts max_length batch_size).writeEvents.dropLast,
            b.length = batch_size) ∧
        (0 < batch_size →
          ∀ b ∈ (finalState count attempts max_length batch_size).writeEvents,
            b.length ≤ batch_size) := by
  intro count batch_size max_length attempts file hgen
  have hsome : (finalState count attempts max_length batch_size).successes = count ∧
      file = (finalState count attempts max_length batch_size).file := by
    rw [generate_dataset] at hgen
    by_cases h : (finalState count attempts max_length batch_size).successes = count
    · rw [if_pos h] at hgen
      cases hgen
      exact ⟨h, rfl⟩
    · rw [if_neg h] at hgen
      exact absurd hgen (by simp)
  obtain ⟨hcount, hfile⟩ := hsome
  have hinv0 : driverInv batch_size
      { file := [.headerLine], writeEvents := [], batch := [], successes := 0 } := by
    refine ⟨by simp, by simp [rowsOf], fun h => by simpa using h, by simp, fun _ b hb => by
      simp at hb⟩
  obtain ⟨hinv1, pre, suf, heq, hrows⟩ :=
    runLoop_spec count batch_size max_length attempts _ hinv0
  set s1 := runLoop count batch_size max_length attempts
      { file := [.headerLine], writeEvents := [], batch := [], successes := 0 } with hs1
  have hrows1 : rowsOf s1 = pre.filterMap (processAttempt max_length) := by
    rw [hrows]
    simp [rowsOf]
  obtain ⟨hfile1, hsucc1, hblt1, hne1, hfull1⟩ := hinv1
  have hSdef : finalState count attempts max_length batch_size =
      (if s1.batch.isEmpty then s1 else flushBatch s1) := rfl
  by_cases hbe : s1.batch.isEmpty
  · rw [hSdef, if_pos hbe] at hcount hfile ⊢
    have hbnil : s1.batch = [] := List.isEmpty_iff.mp hbe
    have hflat : s1.writeEvents.flatten = pre.filterMap (processAttempt max_length) := by
      rw [← hrows1, rowsOf, hbnil, List.append_nil]
    refine ⟨pre, suf, heq, ?_, ?_, ?_, hflat, hne1, ?_, ?_⟩
    · rw [← hrows1, ← hsucc1, hcount]
    · rw [hfile, hfile1, hflat]
    · rw [hfile, hfile1, List.countP_cons]
      rw [countP_isHeader_map_dataLine]
      simp [CsvLine.isHeader]
    · intro hpos b hb
      exact hfull1 hpos b ((List.dropLast_sublist _).subset hb)
    · intro hpos b hb
      rw [hfull1 hpos b hb]
  · rw [hSdef, if_neg hbe] at hcount hfile ⊢
    have hbnil : s1.batch ≠ [] := by
      intro habs
      rw [habs] at hbe
      simp at hbe
    have hflat : (flushBatch s1).writeEvents.flatten =
        pre.filterMap (processAttempt max_length) := by
      rw [← hrows1]
      simp [flushBatch, rowsOf]
    refine ⟨pre, suf, heq, ?_, ?_, ?_, hflat, ?_, ?_, ?_⟩
    · rw [← hrows1, ← hsucc1, ← flushBatch_successes, hcount]
    · rw [hfile]
      show s1.file ++ s1.batch.map CsvLine.dataLine = _
      rw [hfile1, ← hflat]
      simp [flushBatch]
    · rw [hfile]
      show (s1.file ++ s1.batch.map CsvLine.dataLine).countP CsvLine.isHeader = 1
      rw [List.countP_append, hfile1, List.countP_cons, countP_isHeader_map_dataLine,
        countP_isHeader_map_dataLine]
      simp [CsvLine.isHeader]
    · intro b hb
      have hb2 : b ∈ s1.writeEvents ∨ b = s1.batch := by
        simpa [flushBatch] using hb
      rcases hb2 with h1 | h1
      · exact hne1 b h1
      · subst h1
        exact hbnil
    · intro hpos b hb
      have : b ∈ s1.writeEvents := by
        have hdl : (flushBatch s1).writeEvents.dropLast = s1.writeEvents := by
          simp [flushBatch]
        rwa [hdl] at hb
      exact hfull1 hpos b this
    · intro hpos b hb
      have hb2 : b ∈ s1.writeEvents ∨ b = s1.batch := by
        simpa [flushBatch] using hb
      rcases hb2 with h1 | h1
      · rw [hfull1 hpos b h1]
      · subst h1
        exact Nat.le_of_lt (hblt1 hpos)

/-- Witness for C4: a run with one attempt and quota one terminates normally;
applying the theorem there instantiates every hypothesis concretely. -/
theorem generate_dataset_file_spec_witness :
    ∃ pre suf : List Attempt,
      [(⟨.weather "AJ47" 0 0 0 1 "NORD" 1 990 "KLAR", "AAA".toList,
          some "AB".toList⟩ : Attempt)] = pre ++ suf ∧
      (pre.filterMap (processAttempt 50)).length = 1 ∧
      (finalState 1 [⟨.weather "AJ47" 0 0 0 1 "NORD" 1 990 "KLAR", "AAA".toList,
          some "AB".toList⟩] 50 1000).file =
        .headerLine :: (pre.filterMap (processAttempt 50)).map .dataLine ∧
      (finalState 1 [⟨.weather "AJ47" 0 0 0 1 "NORD" 1 990 "KLAR", "AAA".toList,
          some "AB".toList⟩] 50 1000).file.countP CsvLine.isHeader = 1 ∧
      (finalState 1 [⟨.weather "AJ47" 0 0 0 1 "NORD" 1 990 "KLAR", "AAA".toList,
          some "AB".toList⟩] 50 1000).writeEvents.flatten =
        pre.filterMap (processAttempt 50) ∧
      (∀ b ∈ (finalState 1 [⟨.weather "AJ47" 0 0 0 1 "NORD" 1 990 "KLAR", "AAA".toList,
          some "AB".toList⟩] 50 1000).writeEvents, b ≠ []) ∧
      (0 < 1000 →
        ∀ b ∈ (finalState 1 [⟨.weather "AJ47" 0 0 0 1 "NORD" 1 990 "KLAR", "AAA".toList,
            some "AB".toList⟩] 50 1000).writeEvents.dropLast, b.length = 1000) ∧
      (0 < 1000 →
        ∀ b ∈ (finalState 1 [⟨.weather "AJ47" 0 0 0 1 "NORD" 1 990 "KLAR", "AAA".toList,
            some "AB".toList⟩] 50 1000).writeEvents, b.length ≤ 1000) :=
  generate_dataset_file_spec 1 1000 50
    [⟨.weather "AJ47" 0 0 0 1 "NORD" 1 990 "KLAR", "AAA".toList, some "AB".toList⟩]
    (finalState 1 [⟨.weather "AJ47" 0 0 0 1 "NORD" 1 990 "KLAR", "AAA".toList,
      some "AB".toList⟩] 50 1000).file
    (by rw [generate_dataset,
      if_pos (by decide : (finalState 1 [⟨.weather "AJ47" 0 0 0 1 "NORD" 1 990 "KLAR",
        "AAA".toList, some "AB".toList⟩] 50 1000).successes = 1)])

end ClaimTheoremsC

namespace EnigmaData

variable {α : Type*} [DecidableEq α]

/-- Counter keys are exactly the elements of the list. -/
theorem mem_encKeys (l : List α) (a : α) : a ∈ encKeys l ↔ a ∈ l := by
  induction l with
  | nil => simp [encKeys]
  | cons x xs ih =>
    simp only [encKeys, List.mem_cons, List.mem_filter, decide_eq_true_eq, ih]
    by_cases hax : a = x
    · simp [hax]
    · simp [hax]

/-- Counter keys are distinct. -/
theorem nodup_encKeys (l : List α) : (encKeys l).Nodup := by
  induction l with
  | nil => simp [encKeys]
  | cons x xs ih =>
    rw [encKeys]
    refine List.nodup_cons.mpr ⟨?_, ih.filter _⟩
    intro hmem
    have := (List.mem_filter.mp hmem).2
    simp at this

/-- A first occurrence strictly before another first occurrence puts the two
elements in that order among the Counter keys. -/
theorem encKeys_pair_sublist (l : List α) (a b : α) (ha : a ∈ l) (hb : b ∈ l)
    (hab : l.indexOf a < l.indexOf b) : List.Sublist [a, b] (encKeys l) := by
  induction l with
  | nil => simp at ha
  | cons x xs ih =>
    by_cases hbx : b = x
    · subst hbx
      rw [List.indexOf_cons_self] at hab
      omega
    · by_cases hax : a = x
      · subst hax
        rw [encKeys]
        refine List.Sublist.cons₂ _ (List.singleton_sublist.mpr ?_)
        refine List.mem_filter.mpr ⟨?_, by simpa using hbx⟩
        exact (mem_encKeys xs b).mpr (by simpa [hbx] using hb)
      · have ha2 : a ∈ xs := by simpa [hax] using ha
        have hb2 : b ∈ xs := by simpa [hbx] using hb
        rw [List.indexOf_cons_ne _ (Ne.symm hax), List.indexOf_cons_ne _ (Ne.symm hbx)]
          at hab
        have hsub := ih ha2 hb2 (by omega)
        rw [encKeys]
        refine List.Sublist.cons _ ?_
        have hfil : [a, b] = ([a, b]).filter (fun y => decide (y ≠ x)) := by
          simp [hax, hbx]
        rw [hfil]
        exact hsub.filter _

/-- Inserting preserves any existing sublist. -/
theorem sublist_insertByCount (x : α × Nat) (s t : List (α × Nat)) (h : List.Sublist s t) :
    List.Sublist s (insertByCount x t) := by
  induction t generalizing s with
  | nil =>
    rw [List.sublist_nil.mp h]
    exact List.nil_sublist _
  | cons y ys ih =>
    rw [insertByCount]
    by_cases hc : y.2 ≤ x.2
    · rw [if_pos hc]
      exact h.cons _
    · rw [if_neg hc]
      cases h with
      | cons _ h2 => exact (ih _ h2).cons _
      | cons₂ _ h2 => exact (ih _ h2).cons₂ _

/-- The inserted item lands before every already present item whose count is at
most its own: the stability of the insertion. -/
theorem pair_sublist_insertByCount (x q : α × Nat) (t : List (α × Nat))
    (hq : q ∈ t) (hle : q.2 ≤ x.2) : List.Sublist [x, q] (insertByCount x t) := by
  induction t with
  | nil => simp at hq
  | cons y ys ih =>
    rw [insertByCount]
    by_cases hc : y.2 ≤ x.2
    · rw [if_pos hc]
      exact List.Sublist.cons₂ _ (List.singleton_sublist.mpr hq)
    · rw [if_neg hc]
      rcases List.mem_cons.mp hq with h1 | h1
      · subst h1
        omega
      · exact (ih h1).cons _

/-- Insertion is a permutation with pushing the item on top. -/
theorem insertByCount_perm (x : α × Nat) (t : List (α × Nat)) :
    List.Perm (insertByCount x t) (x :: t) := by
  induction t with
  | nil => rfl
  | cons y ys ih =>
    rw [insertByCount]
    by_cases hc : y.2 ≤ x.2
    · rw [if_pos hc]
    · rw [if_neg hc]
      exact (ih.cons y).trans (List.Perm.swap x y ys)

/-- The stable sort permutes its input. -/
theorem sortByCountDesc_perm (t : List (α × Nat)) : List.Perm (sortByCountDesc t) t := by
  induction t with
  | nil => rfl
  | cons x xs ih =>
    rw [sortByCountDesc]
    exact (insertByCount_perm x _).trans (ih.cons x)

/-- Stability of the sort: two items with the first count at least the second
keep their order. -/
theorem sortByCountDesc_stable (p q : α × Nat) (t : List (α × Nat))
    (h : List.Sublist [p, q] t) (hle : q.2 ≤ p.2) : List.Sublist [p, q] (sortByCountDesc t) := by
  induction t with
  | nil => simp at h
  | cons x xs ih =>
    rw [sortByCountDesc]
    cases h with
    | cons _ h2 => exact sublist_insertByCount _ _ _ (ih h2)
    | cons₂ _ h2 =>
      refine pair_sublist_insertByCount _ _ _ ?_ hle
      exact (sortByCountDesc_perm xs).mem_iff.mpr (List.singleton_sublist.mp h2)

/-- Counter items are distinct. -/
theorem nodup_table (l : List α) : (table l).Nodup :=
  (nodup_encKeys l).map (fun a b h => congrArg Prod.fst h)

/-- The sort keeps the items distinct. -/
theorem nodup_sortByCountDesc (t : List (α × Nat)) (h : t.Nodup) :
    (sortByCountDesc t).Nodup := ((sortByCountDesc_perm t).nodup_iff).mpr h

/-- Any item of the Counter items list pairs a list element with its count. -/
theorem table_mem (l : List α) (p : α × Nat) (hp : p ∈ table l) :
    p.2 = l.count p.1 ∧ p.1 ∈ l := by
  rcases List.mem_map.mp hp with ⟨k, hk, rfl⟩
  exact ⟨rfl, (mem_encKeys l k).mp hk⟩

/-- Every element appears with its count in the Counter items list. -/
theorem mem_table (l : List α) (a : α) (ha : a ∈ l) : (a, l.count a) ∈ table l :=
  List.mem_map.mpr ⟨a, (mem_encKeys l a).mpr ha, rfl⟩

/-- In a duplicate-free list, an ordered pair of elements that both survive
truncation stays ordered in the truncation. -/
theorem pair_sublist_take {β : Type*} (s : List β) (n : Nat) (p q : β) (hnd : s.Nodup)
    (h : List.Sublist [p, q] s) (hq : q ∈ s.take n) :
    List.Sublist [p, q] (s.take n) := by
  induction s generalizing n with
  | nil => simp at hq
  | cons y ys ih =>
    cases n with
    | zero => simp at hq
    | succ m =>
      rw [List.take_succ_cons] at hq ⊢
      cases h with
      | cons₂ _ h2 =>
        have hqys : q ∈ ys := List.singleton_sublist.mp h2
        have hqtake : q ∈ ys.take m := by
          rcases List.mem_cons.mp hq with h3 | h3
          · exact absurd (h3 ▸ hqys) (List.nodup_cons.mp hnd).1
          · exact h3
        exact List.Sublist.cons₂ _ (List.singleton_sublist.mpr hqtake)
      | cons _ h2 =>
        have hqys : q ∈ ys := h2.subset (by simp)
        have hqtake : q ∈ ys.take m := by
          rcases List.mem_cons.mp hq with h3 | h3
          · exact absurd (h3 ▸ hqys) (List.nodup_cons.mp hnd).1
          · exact h3
        exact (ih m (List.nodup_cons.mp hnd).2 h2 hqtake).cons _

/-- A reported key of most_common appears, paired with its count, in the
truncated sorted items list. -/
theorem mostCommonKeys_pair (l : List α) (n : Nat) (a : α)
    (ha : a ∈ mostCommonKeys l n) :
    (a, l.count a) ∈ (sortByCountDesc (table l)).take n := by
  rcases List.mem_map.mp ha with ⟨p, hp, rfl⟩
  have hp2 : p ∈ sortByCountDesc (table l) := List.take_subset _ _ hp
  have hp3 : p ∈ table l := ((sortByCountDesc_perm (table l)).mem_iff).mp hp2
  have hpc := (table_mem l p hp3).1
  obtain ⟨k, c⟩ := p
  simp only at hpc
  rw [← hpc]
  exact hp

/-- An ordered pair cannot be a sublist of a duplicate-free list headed by the
second component of the pair. -/
theorem pair_sublist_head_false {β : Type*} (p q : β) (rest : List β) (hne : p ≠ q)
    (hnd : (q :: rest).Nodup) (h : List.Sublist [p, q] (q :: rest)) : False := by
  cases h with
  | cons _ h2 => exact (List.nodup_cons.mp hnd).1 (h2.subset (by simp))
  | cons₂ _ h2 => exact hne rfl

/-- A reported key of most_common is an element of the list. -/
theorem mostCommonKeys_mem (l : List α) (n : Nat) (a : α)
    (ha : a ∈ mostCommonKeys l n) : a ∈ l := by
  have := mostCommonKeys_pair l n a ha
  have h2 : (a, l.count a) ∈ table l :=
    ((sortByCountDesc_perm (table l)).mem_iff).mp (List.take_subset _ _ this)
  exact (table_mem l _ h2).2

end EnigmaData

section ClaimTheoremsD
open EnigmaData DataGenerator

/-- C7: equal-frequency ties in most_common are broken by first-encounter
order.  First conjunct: any two equally frequent keys both reported by
most_common n appear there in order of their first occurrence in the text.
Second conjunct: the single most common key has minimal first-occurrence index
among equally frequent elements.  Third conjunct: the most common bigram that
calculate_bigram_stats reports is exactly the head of most_common over the
bigram list, so both conjuncts apply to it. -/
theorem most_common_tie_break {α : Type*} [DecidableEq α] :
    (∀ (l : List α) (n : Nat) (a b : α),
        a ∈ mostCommonKeys l n → b ∈ mostCommonKeys l n →
        l.count a = l.count b → l.indexOf a < l.indexOf b →
        List.Sublist [a, b] (mostCommonKeys l n)) ∧
    (∀ (l : List α) (a b : α),
        mostCommonKeys l 1 = [a] → b ∈ l → l.count b = l.count a →
        l.indexOf a ≤ l.indexOf b) ∧
    (∀ text : List Char, 2 ≤ text.length →
        mostCommonKeys (bigrams text) 1 = [(calculate_bigram_stats text).2]) := by
  refine ⟨?_, ?_, ?_⟩
  · intro l n a b ha hb hc hab
    have hpa := mostCommonKeys_pair l n a ha
    have hpb := mostCommonKeys_pair l n b hb
    have hal : a ∈ l := mostCommonKeys_mem l n a ha
    have hbl : b ∈ l := mostCommonKeys_mem l n b hb
    have step1 := encKeys_pair_sublist l a b hal hbl hab
    have step2 : List.Sublist [(a, l.count a), (b, l.count b)] (table l) :=
      step1.map (fun k => (k, l.count k))
    have step3 : List.Sublist [(a, l.count a), (b, l.count b)]
        (sortByCountDesc (table l)) :=
      sortByCountDesc_stable _ _ _ step2 (le_of_eq hc.symm)
    have step4 := pair_sublist_take (sortByCountDesc (table l)) n _ _
      (nodup_sortByCountDesc _ (nodup_table l)) step3 hpb
    exact step4.map Prod.fst
  · intro l a b hone hbl hcnt
    by_cases hab : a = b
    · rw [hab]
    by_contra hcon
    have hba : l.indexOf b < l.indexOf a := by omega
    have hal : a ∈ l := mostCommonKeys_mem l 1 a (by rw [hone]; simp)
    have step1 := encKeys_pair_sublist l b a hbl hal hba
    have step2 : List.Sublist [(b, l.count b), (a, l.count a)] (table l) :=
      step1.map (fun k => (k, l.count k))
    have step3 : List.Sublist [(b, l.count b), (a, l.count a)]
        (sortByCountDesc (table l)) :=
      sortByCountDesc_stable _ _ _ step2 (le_of_eq hcnt.symm)
    have hnd := nodup_sortByCountDesc _ (nodup_table l)
    cases hs : sortByCountDesc (table l) with
    | nil =>
      rw [mostCommonKeys, most_common, hs] at hone
      simp at hone
    | cons p0 rest =>
      have hp0 : p0.1 = a := by
        rw [mostCommonKeys, most_common, hs] at hone
        simpa using hone
      have hp0t : p0 ∈ table l := ((sortByCountDesc_perm (table l)).mem_iff).mp
        (by rw [hs]; simp)
      have hp0e : p0 = (a, l.count a) := by
        obtain ⟨k, c⟩ := p0
        have := (table_mem l _ hp0t).1
        simp only at this hp0
        rw [hp0] at this ⊢
        rw [this]
      rw [hs, hp0e] at step3
      rw [hs, hp0e] at hnd
      exact pair_sublist_head_false _ _ rest
        (fun h => hab (congrArg Prod.fst h).symm) hnd step3
  · intro text hlen
    have hbne : bigrams text ≠ [] := by
      have : (bigrams text).length = text.length - 1 := by
        simp [bigrams]
      intro habs
      rw [habs] at this
      simp at this
      omega
    have htne : table (bigrams text) ≠ [] := by
      cases hb : bigrams text with
      | nil => exact absurd hb hbne
      | cons x xs =>
        rw [table, encKeys]
        simp
    have hsne : sortByCountDesc (table (bigrams text)) ≠ [] := by
      intro habs
      have := (sortByCountDesc_perm (table (bigrams text))).length_eq
      rw [habs] at this
      exact htne (List.eq_nil_of_length_eq_zero this.symm)
    cases hs : sortByCountDesc (table (bigrams text)) with
    | nil => exact absurd hs hsne
    | cons p0 rest =>
      have hkeys : mostCommonKeys (bigrams text) 1 = [p0.1] := by
        rw [mostCommonKeys, most_common, hs]
        simp
      rw [hkeys, calculate_bigram_stats, if_neg (by omega)]
      rw [hkeys]
      simp

/-- Witness for C7 at a concrete text with an exact tie. -/
theorem most_common_tie_break_witness :
    List.Sublist ['A', 'B'] (mostCommonKeys "ABAB".toList 2) :=
  most_common_tie_break.1 "ABAB".toList 2 'A' 'B' (by decide) (by decide) (by decide)
    (by decide)

end ClaimTheoremsD

namespace EnigmaData

variable {α : Type*} [DecidableEq α]

/-- The Counter keys seen as a finite set are the elements of the list. -/
theorem encKeys_toFinset (l : List α) : (encKeys l).toFinset = l.toFinset := by
  ext x
  simp [List.mem_toFinset, mem_encKeys]

/-- A sum of a function of the counts over the Counter items is a finite sum
over the distinct elements of the list. -/
theorem table_map_sum {β : Type*} [AddCommMonoid β] (l : List α) (f : ℕ → β) :
    ((table l).map (fun kc => f kc.2)).sum = ∑ a in l.toFinset, f (l.count a) := by
  have h1 : (table l).map (fun kc => f kc.2) =
      (encKeys l).map (fun a => f (l.count a)) := by
    rw [table, List.map_map]
    rfl
  rw [h1, ← List.sum_toFinset _ (nodup_encKeys l), encKeys_toFinset]

end EnigmaData

section ClaimTheoremsE
open EnigmaData DataGenerator

/-- C8: over texts drawn from the uppercase alphabet, the index of coincidence
lies in the unit interval and is 0 for degenerate lengths, and the Shannon
entropy lies between 0 and log2 of 26 (the alphabet size); the entropy upper
bound is the concavity (Jensen) bound with at most 26 distinct symbols. -/
theorem entropy_ioc_bounds :
    ∀ text : List Char, (∀ c ∈ text, c ∈ AZ) →
      (0 ≤ index_of_coincidence text ∧ index_of_coincidence text ≤ 1 ∧
        (text.length ≤ 1 → index_of_coincidence text = 0)) ∧
      (0 ≤ calculate_entropy text ∧ calculate_entropy text ≤ Real.logb 2 26) := by
  intro text hAZ
  have hE : calculate_entropy text =
      -∑ a in text.toFinset, ((text.count a : ℝ) / text.length) *
        Real.logb 2 ((text.count a : ℝ) / text.length) := by
    rw [calculate_entropy,
      table_map_sum text (fun n => (n : ℝ) / text.length * Real.logb 2 ((n : ℝ) / text.length))]
  constructor
  · refine ⟨?_, ?_, fun h => by rw [index_of_coincidence, if_pos h]⟩
    · rw [index_of_coincidence]
      by_cases h : text.length ≤ 1
      · rw [if_pos h]
      · rw [if_neg h]
        have hl : (2 : ℚ) ≤ (text.length : ℚ) := by
          exact_mod_cast (by omega : 2 ≤ text.length)
        apply div_nonneg (by positivity)
        nlinarith
    · by_cases h : text.length ≤ 1
      · rw [index_of_coincidence, if_pos h]
        norm_num
      · rw [index_of_coincidence, if_neg h]
        have hlen2 : 2 ≤ text.length := by omega
        have hl : (2 : ℚ) ≤ (text.length : ℚ) := by exact_mod_cast hlen2
        have hpos : 0 < (text.length : ℚ) * ((text.length : ℚ) - 1) := by nlinarith
        rw [div_le_one hpos]
        have hsum : (((table text).map (fun kc => kc.2 * (kc.2 - 1))).sum : ℕ) ≤
            text.length * (text.length - 1) := by
          rw [table_map_sum text (fun n => n * (n - 1))]
          calc ∑ a in text.toFinset, text.count a * (text.count a - 1)
              ≤ ∑ a in text.toFinset, text.count a * (text.length - 1) := by
                refine Finset.sum_le_sum fun a _ => ?_
                exact Nat.mul_le_mul_left _
                  (Nat.sub_le_sub_right (List.count_le_length a text) 1)
            _ = (∑ a in text.toFinset, text.count a) * (text.length - 1) := by
                rw [Finset.sum_mul]
            _ = text.length * (text.length - 1) := by
                rw [List.sum_toFinset_count_eq_length]
        have hcast : ((text.length * (text.length - 1) : ℕ) : ℚ) =
            (text.length : ℚ) * ((text.length : ℚ) - 1) := by
          push_cast [Nat.cast_sub (by omega : 1 ≤ text.length)]
          ring
        calc ((((table text).map (fun kc => kc.2 * (kc.2 - 1))).sum : ℕ) : ℚ)
            ≤ ((text.length * (text.length - 1) : ℕ) : ℚ) := by exact_mod_cast hsum
          _ = (text.length : ℚ) * ((text.length : ℚ) - 1) := hcast
  · have hterm : ∀ a ∈ text.toFinset,
        ((text.count a : ℝ) / text.length) *
          Real.logb 2 ((text.count a : ℝ) / text.length) ≤ 0 := by
      intro a ha
      have hmem : a ∈ text := List.mem_toFinset.mp ha
      have hN : 0 < text.length := List.length_pos.mpr (by rintro rfl; simp at hmem)
      have hw0 : (0 : ℝ) ≤ (text.count a : ℝ) / text.length := by positivity
      have hw1 : (text.count a : ℝ) / text.length ≤ 1 := by
        rw [div_le_one (by exact_mod_cast hN)]
        exact_mod_cast List.count_le_length a text
      exact mul_nonpos_iff.mpr (Or.inl ⟨hw0, Real.logb_nonpos one_lt_two hw0 hw1⟩)
    have hnonneg : 0 ≤ calculate_entropy text := by
      rw [hE, neg_nonneg]
      exact Finset.sum_nonpos hterm
    have hupper : calculate_entropy text ≤ Real.logb 2 26 := by
      by_cases hnil : text = []
      · subst hnil
        rw [hE]
        simp only [List.toFinset_nil, Finset.sum_empty, neg_zero]
        exact Real.logb_nonneg one_lt_two (by norm_num)
      · have hN : 0 < text.length := List.length_pos.mpr hnil
        have hNR : (0 : ℝ) < text.length := by exact_mod_cast hN
        have hw_pos : ∀ a ∈ text.toFinset, 0 < (text.count a : ℝ) / text.length := by
          intro a ha
          have hcp : 0 < text.count a := List.count_pos_iff.mpr (List.mem_toFinset.mp ha)
          exact div_pos (by exact_mod_cast hcp) hNR
        have hw_sum : ∑ a in text.toFinset, (text.count a : ℝ) / text.length = 1 := by
          rw [← Finset.sum_div]
          have hcsum : ∑ a in text.toFinset, (text.count a : ℝ) = (text.length : ℝ) := by
            exact_mod_cast congrArg (Nat.cast : ℕ → ℝ)
              (List.sum_toFinset_count_eq_length text)
          rw [hcsum, div_self (ne_of_gt hNR)]
        have jensen := ConcaveOn.le_map_sum (𝕜 := ℝ) (f := Real.log) (s := Set.Ioi 0)
          (t := text.toFinset) (w := fun a => (text.count a : ℝ) / text.length)
          (p := fun a => ((text.count a : ℝ) / text.length)⁻¹)
          (strictConcaveOn_log_Ioi.concaveOn)
          (fun a ha => le_of_lt (hw_pos a ha)) hw_sum
          (fun a ha => Set.mem_Ioi.mpr (inv_pos.mpr (hw_pos a ha)))
        have hsum_inv : ∑ a in text.toFinset,
            ((text.count a : ℝ) / text.length) • (((text.count a : ℝ) / text.length)⁻¹) =
            (text.toFinset.card : ℝ) := by
          rw [Finset.sum_congr rfl (fun a ha => by
            rw [smul_eq_mul, mul_inv_cancel₀ (ne_of_gt (hw_pos a ha))])]
          simp
        have hlog_inv : ∀ a ∈ text.toFinset,
            ((text.count a : ℝ) / text.length) •
              Real.log (((text.count a : ℝ) / text.length)⁻¹) =
            -(((text.count a : ℝ) / text.length) *
              Real.log ((text.count a : ℝ) / text.length)) := by
          intro a _
          rw [smul_eq_mul, Real.log_inv]
          ring
        rw [Finset.sum_congr rfl hlog_inv, hsum_inv, Finset.sum_neg_distrib] at jensen
        have hper : ∀ a ∈ text.toFinset,
            ((text.count a : ℝ) / text.length) *
              Real.logb 2 ((text.count a : ℝ) / text.length) =
            (((text.count a : ℝ) / text.length) *
              Real.log ((text.count a : ℝ) / text.length)) / Real.log 2 := by
          intro a _
          rw [Real.logb]
          ring
        have hEntLog : calculate_entropy text =
            (-∑ a in text.toFinset, ((text.count a : ℝ) / text.length) *
              Real.log ((text.count a : ℝ) / text.length)) / Real.log 2 := by
          rw [hE, Finset.sum_congr rfl hper, ← Finset.sum_div, neg_div]
        have hlog2 : (0 : ℝ) < Real.log 2 := Real.log_pos (by norm_num)
        rw [hEntLog]
        refine le_trans ((div_le_div_iff_of_pos_right hlog2).mpr jensen) ?_
        rw [Real.log_div_log]
        have hsub : text.toFinset ⊆ AZ.toFinset := fun c hc =>
          List.mem_toFinset.mpr (hAZ c (List.mem_toFinset.mp hc))
        have hK26 : text.toFinset.card ≤ 26 := by
          calc text.toFinset.card ≤ AZ.toFinset.card := Finset.card_le_card hsub
            _ = 26 := by decide
        obtain ⟨c, hc⟩ := List.exists_mem_of_ne_nil text hnil
        have hKpos : (0 : ℝ) < (text.toFinset.card : ℝ) := by
          exact_mod_cast Finset.card_pos.mpr ⟨c, List.mem_toFinset.mpr hc⟩
        exact Real.logb_le_logb_of_le one_lt_two hKpos (by exact_mod_cast hK26)
    exact ⟨hnonneg, hupper⟩

/-- Witness for C8 at a concrete uppercase text. -/
theorem entropy_ioc_bounds_witness :
    (0 ≤ index_of_coincidence "AABB".toList ∧ index_of_coincidence "AABB".toList ≤ 1 ∧
      ("AABB".toList.length ≤ 1 → index_of_coincidence "AABB".toList = 0)) ∧
    (0 ≤ calculate_entropy "AABB".toList ∧
      calculate_entropy "AABB".toList ≤ Real.logb 2 26) :=
  entropy_ioc_bounds "AABB".toList (by decide)

end ClaimTheoremsE
